import Mathlib

/-!
Verification of the tree-diff/merge engine and translation orchestrator of the
Tradux repository (module `translator.js`, symbols `findMissingContent`,
`findObsoleteContent`, `deepMerge`, `removeObsoleteKeys`, `translateLanguage`,
`updateLanguage`).

A translation tree is a JavaScript object whose values are strings (leaf
translations) or nested objects.  We embed such objects as association lists
preserving insertion order, which is exactly the iteration order of
`for (const key in o)` for the non-numeric keys used by translation files.
`JSVal.str` is a JS string value and `JSVal.obj` a nested object.
-/

inductive JSVal where
  | str : String → JSVal
  | obj : List (String × JSVal) → JSVal
deriving Repr

abbrev Obj := List (String × JSVal)

/-- Embedding of `key in o` / `o[key]`: first binding of `k` in the object. -/
def lookupKey (o : Obj) (k : String) : Option JSVal :=
  match o with
  | [] => none
  | (k', v) :: rest => if k' = k then some v else lookupKey rest k

/-- Embedding of the JS assignment `o[k] = v`: replaces the binding of `k`
in place (keeping its position) or appends a new binding. -/
def setKey (o : Obj) (k : String) (v : JSVal) : Obj :=
  match o with
  | [] => [(k, v)]
  | (k', v') :: rest => if k' = k then (k', v) :: rest else (k', v') :: setKey rest k v

/-- Embedding of `delete o[k]`: removes the binding of `k` if present. -/
def eraseKey (o : Obj) (k : String) : Obj :=
  match o with
  | [] => []
  | (k', v') :: rest => if k' = k then rest else (k', v') :: eraseKey rest k

/-- The keys of an object, in order (`Object.keys(o)`). -/
def keysOf (o : Obj) : List String := o.map Prod.fst

mutual

/-- Well-formedness of the embedding: a JS object cannot bind the same key
twice, at any nesting depth.  Every object produced by parsing a translation
file satisfies this. -/
def wfVal : JSVal → Bool
  | .str _ => true
  | .obj es => wfObj es

def wfObj : Obj → Bool
  | [] => true
  | (k, v) :: rest => !((keysOf rest).contains k) && wfVal v && wfObj rest

end

mutual

/-- Every key, at every depth, is nonempty and contains no `'.'` character.
The engine joins and re-splits key paths on `'.'`, so keys containing the
separator (or empty keys) make dotted paths ambiguous. -/
def goodVal : JSVal → Bool
  | .str _ => true
  | .obj es => goodKeys es

def goodKeys : Obj → Bool
  | [] => true
  | (k, v) :: rest =>
    !(k == "") && k.data.all (fun c => !(c == '.')) && goodVal v && goodKeys rest

end

/-- Character-level worker for `keyPath.split('.')`. -/
def splitDotsAux : List Char → List (List Char)
  | [] => [[]]
  | c :: rest =>
    if c = '.' then [] :: splitDotsAux rest
    else
      match splitDotsAux rest with
      | [] => [[c]]
      | l :: ls => (c :: l) :: ls

/-- Embedding of the JavaScript `keyPath.split('.')`. -/
def splitDots (s : String) : List String :=
  (splitDotsAux s.data).map String.mk

/-- Source: `translator.js`, `findMissingContent(source, target, path = '')`.
For every key of `source`: absent in `target` → whole value missing; both
objects → recurse, attach only if non-empty; source object vs target
non-object → whole source subtree missing; both primitives → key fully
present, omitted (existing translations are kept). -/
def findMissingContent (source target : Obj) (path : String) : Obj :=
  match source with
  | [] => []
  | (k, v) :: rest =>
    let currentPath := if path = "" then k else path ++ "." ++ k
    let tail := findMissingContent rest target path
    match lookupKey target k with
    | none => (k, v) :: tail
    | some tv =>
      match v with
      | .obj sE =>
        match tv with
        | .obj tE =>
          let nested := findMissingContent sE tE currentPath
          if nested.isEmpty then tail else (k, .obj nested) :: tail
        | .str _ => (k, v) :: tail
      | .str _ => tail

/-- Source: `translator.js`, `deepMerge(target, source)`.  Overlay `source`
onto `target`: objects merge recursively, anything else is replaced by the
source value; keys only in `target` are preserved. -/
def deepMerge (target source : Obj) : Obj :=
  match source with
  | [] => target
  | (k, sv) :: rest =>
    match sv with
    | .obj sE =>
      match lookupKey target k with
      | some (.obj tE) => deepMerge (setKey target k (.obj (deepMerge tE sE))) rest
      | _ => deepMerge (setKey target k sv) rest
    | .str _ => deepMerge (setKey target k sv) rest

/-- Source: `translator.js`, `findObsoleteContent(source, target, path = '')`
(called `findObsoleteKeys` in the design document).  Walks `target`; a key
absent from `source` contributes its dotted path, a target object whose
source counterpart is not an object likewise, and two objects recurse. -/
def findObsoleteContent (source target : Obj) (path : String) : List String :=
  match target with
  | [] => []
  | (k, tv) :: rest =>
    let currentPath := if path = "" then k else path ++ "." ++ k
    (match lookupKey source k with
     | none => [currentPath]
     | some sv =>
       match tv with
       | .obj tE =>
         match sv with
         | .obj sE => findObsoleteContent sE tE currentPath
         | .str _ => [currentPath]
       | .str _ => []) ++ findObsoleteContent source rest path

/-- One iteration of the removal loop of `removeObsoleteKeys`, acting on the
already-split segment list of a dotted path.  The JS walks `current` down
through the segments while they denote objects; on a missing or non-object
intermediate segment it executes `break` — and then still runs
`delete current[finalKey]` at the node where the walk stopped. -/
def removePath (o : Obj) : List String → Obj
  | [] => o
  | [k] => eraseKey o k
  | k :: rest =>
    match lookupKey o k with
    | some (.obj inner) => setKey o k (.obj (removePath inner rest))
    | _ => eraseKey o (rest.getLastD k)

/-- Source: `translator.js`, `removeObsoleteKeys(data, obsoleteKeys)` (called
`removeKeys` in the design document).  Deep-clones `data` (a no-op in this
pure embedding) and processes each dotted path in order. -/
def removeObsoleteKeys (data : Obj) (obsoleteKeys : List String) : Obj :=
  obsoleteKeys.foldl (fun acc keyPath => removePath acc (splitDots keyPath)) data

/-! ## Orchestrator model

The orchestrator functions in `translator.js` are IO code (file system and
one HTTP call per language).  We model their per-language control flow with
the collaborators made explicit: the persisted language-record store becomes
an association list from language code to `Option Obj` (an entry is a file
that exists; `none` is a file whose contents fail to load, matching
`loadLanguageFile` returning `null`), and the remote translator becomes a
function argument returning `none` on a network / non-2xx / thrown failure.
The returned triple is (store after the flow, remote calls made in order
with their payloads, terminal outcome reported by the logger). -/

inductive Outcome where
  | created
  | skippedExists
  | failed
  | upToDate
  | updated
deriving Repr, DecidableEq

abbrev Store := List (String × Option Obj)

abbrev Translator := Obj → String → Option Obj

/-- First entry for a language code, if any (`fileManager.exists` is
`(storeFind st lang).isSome`). -/
def storeFind : Store → String → Option (Option Obj)
  | [], _ => none
  | (l, t) :: rest, lang => if l = lang then some t else storeFind rest lang

/-- Embedding of `fileManager.exists(targetFile)`. -/
def storeHas (st : Store) (lang : String) : Bool :=
  (storeFind st lang).isSome

/-- Embedding of `fileManager.loadLanguageFile`: `none` both when the file
is absent and when it exists but its contents cannot be loaded. -/
def storeLoad (st : Store) (lang : String) : Option Obj :=
  match storeFind st lang with
  | some (some t) => some t
  | _ => none

/-- Embedding of `fs.writeFile(targetFile, …)`: the whole record is
rewritten. -/
def storeSave : Store → String → Obj → Store
  | [], lang, tree => [(lang, some tree)]
  | (l, t) :: rest, lang, tree =>
    if l = lang then (l, some tree) :: rest else (l, t) :: storeSave rest lang tree

/-- Source: `translator.js`, `translateLanguage(lang, sourceData, config,
credentials)` — the Create flow for one language.  If the target file exists
the language is skipped with no network call; otherwise the full source tree
is sent to the remote translator and the result persisted, a failed call
being logged and reported without a write. -/
def translateLanguage (st : Store) (tr : Translator) (lang : String) (sourceData : Obj) :
    Store × List (Obj × String) × Outcome :=
  if storeHas st lang then (st, [], .skippedExists)
  else
    match tr sourceData lang with
    | some translated => (storeSave st lang translated, [(sourceData, lang)], .created)
    | none => (st, [(sourceData, lang)], .failed)

/-- Source: `translator.js`, `updateLanguage(lang, sourceData, config,
credentials)` — the Update flow for one language.  A missing target file
delegates to the Create flow, as does an existing file whose contents fail
to load; otherwise the diff is computed, obsolete keys are removed, missing
content (only) is sent to the remote translator and merged, and the result
is persisted. -/
def updateLanguage (st : Store) (tr : Translator) (lang : String) (sourceData : Obj) :
    Store × List (Obj × String) × Outcome :=
  if !storeHas st lang then translateLanguage st tr lang sourceData
  else
    match storeLoad st lang with
    | none => translateLanguage st tr lang sourceData
    | some existingData =>
      let missingContent := findMissingContent sourceData existingData ""
      let obsoleteKeys := findObsoleteContent sourceData existingData ""
      if missingContent.isEmpty && obsoleteKeys.isEmpty then (st, [], .upToDate)
      else
        let updatedData :=
          if obsoleteKeys.isEmpty then existingData
          else removeObsoleteKeys existingData obsoleteKeys
        if missingContent.isEmpty then (storeSave st lang updatedData, [], .updated)
        else
          match tr missingContent lang with
          | some translated =>
            (storeSave st lang (deepMerge updatedData translated), [(missingContent, lang)], .updated)
          | none => (st, [(missingContent, lang)], .failed)

example : findMissingContent [("a", .obj [("b", .str "1"), ("c", .str "2")])]
    [("a", .obj [("b", .str "x")])] "" = [("a", .obj [("c", .str "2")])] := by
  simp [findMissingContent, lookupKey]

example : findObsoleteContent [("a", .str "1")] [("a", .str "1"), ("b", .str "2")] "" = ["b"] := by
  simp [findObsoleteContent, lookupKey]

example : removeObsoleteKeys [("c", .str "1")] ["a.c"] = [] := rfl

example : removeObsoleteKeys [("a", .obj [("b", .str "1")])] ["a.b.c"]
    = [("a", .obj [("b", .str "1")])] := rfl

example : splitDots "a.b" = ["a", "b"] := rfl

/-! ## Size measure and basic lemmas -/

mutual

def sizeVal : JSVal → Nat
  | .str _ => 1
  | .obj es => 1 + sizeObj es

def sizeObj : Obj → Nat
  | [] => 0
  | (_, v) :: rest => 1 + sizeVal v + sizeObj rest

end

theorem lookupKey_cons (k' : String) (v : JSVal) (rest : Obj) (k : String) :
    lookupKey ((k', v) :: rest) k = if k' = k then some v else lookupKey rest k := rfl

theorem keysOf_cons (k : String) (v : JSVal) (rest : Obj) :
    keysOf ((k, v) :: rest) = k :: keysOf rest := rfl

theorem lookupKey_eq_none_of_notMem {o : Obj} {k : String} (h : k ∉ keysOf o) :
    lookupKey o k = none := by
  induction o with
  | nil => rfl
  | cons e rest ih =>
    obtain ⟨k', v⟩ := e
    rw [keysOf_cons, List.mem_cons, not_or] at h
    rw [lookupKey_cons, if_neg (fun hk => h.1 hk.symm)]
    exact ih h.2

theorem mem_keysOf_of_lookupKey {o : Obj} {k : String} {v : JSVal}
    (h : lookupKey o k = some v) : k ∈ keysOf o := by
  induction o with
  | nil => simp [lookupKey] at h
  | cons e rest ih =>
    obtain ⟨k', v'⟩ := e
    rw [lookupKey_cons] at h
    rw [keysOf_cons, List.mem_cons]
    by_cases hk : k' = k
    · exact Or.inl hk.symm
    · rw [if_neg hk] at h
      exact Or.inr (ih h)

theorem sizeVal_lt_of_lookupKey {o : Obj} {k : String} {v : JSVal}
    (h : lookupKey o k = some v) : sizeVal v < 1 + sizeObj o := by
  induction o with
  | nil => simp [lookupKey] at h
  | cons e rest ih =>
    obtain ⟨k', v'⟩ := e
    rw [lookupKey_cons] at h
    by_cases hk : k' = k
    · rw [if_pos hk] at h
      cases h
      simp only [sizeObj]
      omega
    · rw [if_neg hk] at h
      have := ih h
      simp only [sizeObj]
      omega

theorem wfObj_cons_iff {k : String} {v : JSVal} {rest : Obj} :
    wfObj ((k, v) :: rest) = true ↔
      k ∉ keysOf rest ∧ wfVal v = true ∧ wfObj rest = true := by
  simp only [wfObj, Bool.and_eq_true, Bool.not_eq_true']
  constructor
  · rintro ⟨⟨h1, h2⟩, h3⟩
    exact ⟨by simpa using h1, h2, h3⟩
  · rintro ⟨h1, h2, h3⟩
    exact ⟨⟨by simpa using h1, h2⟩, h3⟩

theorem goodKeys_cons_iff {k : String} {v : JSVal} {rest : Obj} :
    goodKeys ((k, v) :: rest) = true ↔
      k ≠ "" ∧ (∀ c ∈ k.data, c ≠ '.') ∧ goodVal v = true ∧ goodKeys rest = true := by
  simp only [goodKeys, Bool.and_eq_true, Bool.not_eq_true', List.all_eq_true]
  constructor
  · rintro ⟨⟨⟨h1, h2⟩, h3⟩, h4⟩
    refine ⟨by simpa using h1, fun c hc => by simpa using h2 c hc, h3, h4⟩
  · rintro ⟨h1, h2, h3, h4⟩
    exact ⟨⟨⟨by simpa using h1, fun c hc => by simpa using h2 c hc⟩, h3⟩, h4⟩

theorem lookupKey_self_of_wf {o : Obj} (hwf : wfObj o = true) {k : String} {v : JSVal}
    (h : (k, v) ∈ o) : lookupKey o k = some v := by
  induction o with
  | nil => simp at h
  | cons e rest ih =>
    obtain ⟨k', v'⟩ := e
    rw [wfObj_cons_iff] at hwf
    rcases List.mem_cons.1 h with h1 | h1
    · cases h1
      simp [lookupKey]
    · have hk : k ≠ k' := by
        intro hkk
        subst hkk
        exact hwf.1 (List.mem_map_of_mem Prod.fst h1)
      rw [lookupKey_cons, if_neg (Ne.symm hk)]
      exact ih hwf.2.2 h1

theorem wfVal_of_lookupKey {o : Obj} (hwf : wfObj o = true) {k : String} {v : JSVal}
    (h : lookupKey o k = some v) : wfVal v = true := by
  induction o with
  | nil => simp [lookupKey] at h
  | cons e rest ih =>
    obtain ⟨k', v'⟩ := e
    rw [wfObj_cons_iff] at hwf
    rw [lookupKey_cons] at h
    by_cases hk : k' = k
    · rw [if_pos hk] at h
      cases h
      exact hwf.2.1
    · rw [if_neg hk] at h
      exact ih hwf.2.2 h

theorem goodVal_of_lookupKey {o : Obj} (hg : goodKeys o = true) {k : String} {v : JSVal}
    (h : lookupKey o k = some v) : goodVal v = true := by
  induction o with
  | nil => simp [lookupKey] at h
  | cons e rest ih =>
    obtain ⟨k', v'⟩ := e
    rw [goodKeys_cons_iff] at hg
    rw [lookupKey_cons] at h
    by_cases hk : k' = k
    · rw [if_pos hk] at h
      cases h
      exact hg.2.2.1
    · rw [if_neg hk] at h
      exact ih hg.2.2.2 h

theorem lookupKey_setKey_self (o : Obj) (k : String) (v : JSVal) :
    lookupKey (setKey o k v) k = some v := by
  induction o with
  | nil => simp [setKey, lookupKey]
  | cons e rest ih =>
    obtain ⟨k', v'⟩ := e
    by_cases hk : k' = k
    · rw [setKey, if_pos hk, lookupKey_cons, if_pos hk]
    · rw [setKey, if_neg hk, lookupKey_cons, if_neg hk]
      exact ih

theorem lookupKey_setKey_ne (o : Obj) (k : String) (v : JSVal) {k' : String}
    (h : k' ≠ k) : lookupKey (setKey o k v) k' = lookupKey o k' := by
  induction o with
  | nil =>
    rw [setKey, lookupKey_cons, if_neg (fun hk => h (hk.symm)), lookupKey]
  | cons e rest ih =>
    obtain ⟨k₀, v₀⟩ := e
    by_cases hk : k₀ = k
    · subst hk
      rw [setKey, if_pos rfl, lookupKey_cons, lookupKey_cons,
        if_neg (fun hk => h (hk.symm)), if_neg (fun hk => h (hk.symm))]
    · rw [setKey, if_neg hk, lookupKey_cons, lookupKey_cons]
      by_cases hk' : k₀ = k'
      · rw [if_pos hk', if_pos hk']
      · rw [if_neg hk', if_neg hk', ih]

theorem lookupKey_eraseKey_ne (o : Obj) (k : String) {k' : String}
    (h : k' ≠ k) : lookupKey (eraseKey o k) k' = lookupKey o k' := by
  induction o with
  | nil => rfl
  | cons e rest ih =>
    obtain ⟨k₀, v₀⟩ := e
    by_cases hk : k₀ = k
    · subst hk
      rw [eraseKey, if_pos rfl, lookupKey_cons, if_neg (fun hkk => h (hkk.symm))]
    · rw [eraseKey, if_neg hk, lookupKey_cons, lookupKey_cons]
      by_cases hk' : k₀ = k'
      · rw [if_pos hk', if_pos hk']
      · rw [if_neg hk', if_neg hk', ih]

theorem setKey_cons_self (k : String) (v v' : JSVal) (rest : Obj) :
    setKey ((k, v) :: rest) k v' = (k, v') :: rest := by
  simp [setKey]

theorem setKey_cons_ne {k k₀ : String} (h : k₀ ≠ k) (v₀ v : JSVal) (rest : Obj) :
    setKey ((k₀, v₀) :: rest) k v = (k₀, v₀) :: setKey rest k v := by
  simp [setKey, h]

theorem eraseKey_cons_self (k : String) (v : JSVal) (rest : Obj) :
    eraseKey ((k, v) :: rest) k = rest := by
  simp [eraseKey]

theorem eraseKey_cons_ne {k k₀ : String} (h : k₀ ≠ k) (v₀ : JSVal) (rest : Obj) :
    eraseKey ((k₀, v₀) :: rest) k = (k₀, v₀) :: eraseKey rest k := by
  simp [eraseKey, h]

/-! ## Lemmas about `splitDots` -/

theorem splitDotsAux_ne_nil (l : List Char) : splitDotsAux l ≠ [] := by
  induction l with
  | nil => simp [splitDotsAux]
  | cons c rest ih =>
    rw [splitDotsAux]
    by_cases hc : c = '.'
    · simp [hc]
    · rw [if_neg hc]
      cases hx : splitDotsAux rest with
      | nil => simp
      | cons a as => simp

theorem splitDotsAux_append (a b : List Char) :
    splitDotsAux (a ++ '.' :: b) = splitDotsAux a ++ splitDotsAux b := by
  induction a with
  | nil => simp [splitDotsAux]
  | cons c rest ih =>
    rw [List.cons_append, splitDotsAux, splitDotsAux]
    by_cases hc : c = '.'
    · rw [if_pos hc, if_pos hc, ih]
      simp
    · rw [if_neg hc, if_neg hc, ih]
      cases hx : splitDotsAux rest with
      | nil => exact absurd hx (splitDotsAux_ne_nil rest)
      | cons l ls => simp

theorem splitDotsAux_of_dotFree {l : List Char} (h : ∀ c ∈ l, c ≠ '.') :
    splitDotsAux l = [l] := by
  induction l with
  | nil => rfl
  | cons c rest ih =>
    rw [splitDotsAux, if_neg (h c (List.mem_cons_self c rest)),
      ih (fun c' hc' => h c' (List.mem_cons_of_mem c hc'))]

theorem string_mk_data (s : String) : String.mk s.data = s := rfl

theorem string_data_append (s t : String) : (s ++ t).data = s.data ++ t.data := rfl

theorem string_eq_iff_data {s t : String} : s = t ↔ s.data = t.data := by
  constructor
  · intro h
    rw [h]
  · intro h
    cases s
    cases t
    exact congrArg String.mk h

/-- A key that is dot-free splits to itself. -/
theorem splitDots_of_dotFree {k : String} (h : ∀ c ∈ k.data, c ≠ '.') :
    splitDots k = [k] := by
  rw [splitDots, splitDotsAux_of_dotFree h]
  simp [string_mk_data]

theorem splitDots_append_dot (s k : String) :
    splitDots (s ++ "." ++ k) = splitDots s ++ splitDots k := by
  rw [splitDots, string_data_append, string_data_append]
  have hdot : ("." : String).data = ['.'] := rfl
  rw [hdot]
  simp only [List.append_assoc, List.singleton_append, splitDotsAux_append, List.map_append]
  rfl

theorem append_dot_ne_empty (s k : String) : s ++ "." ++ k ≠ "" := by
  intro h
  have hd : (s ++ "." ++ k).data = ("" : String).data := by rw [h]
  rw [string_data_append, string_data_append] at hd
  simp [show ("." : String).data = ['.'] from rfl] at hd

/-- The segment form of a dotted-path accumulator: the JS code treats the
empty string as "no accumulated path". -/
def pathSegs (s : String) : List String :=
  if s = "" then [] else splitDots s

theorem pathSegs_step {s k : String} (hk : k ≠ "") (hdf : ∀ c ∈ k.data, c ≠ '.') :
    pathSegs (if s = "" then k else s ++ "." ++ k) = pathSegs s ++ [k] := by
  by_cases hs : s = ""
  · rw [if_pos hs, pathSegs, pathSegs, if_pos hs, if_neg hk, splitDots_of_dotFree hdf]
    simp
  · rw [if_neg hs, pathSegs, pathSegs, if_neg hs, if_neg (append_dot_ne_empty s k),
      splitDots_append_dot, splitDots_of_dotFree hdf]

/-! ## Key-path navigation -/

/-- The value a (nonempty) segment list denotes in a tree, if any. -/
def getPath (o : Obj) : List String → Option JSVal
  | [] => none
  | [k] => lookupKey o k
  | k :: rest =>
    match lookupKey o k with
    | some (.obj inner) => getPath inner rest
    | _ => none

/-- The navigation loop of `removeObsoleteKeys` reaches the parent of the
final segment without `break`ing: every intermediate segment denotes an
object. -/
def navOk : Obj → List String → Bool
  | _, [] => true
  | _, [_] => true
  | o, k :: rest =>
    match lookupKey o k with
    | some (.obj inner) => navOk inner rest
    | _ => false

/-- `p` is a strict ancestor of `q`: `q` extends `p` by at least one
segment. -/
def strictAncestor (p q : List String) : Prop :=
  ∃ r, r ≠ [] ∧ p ++ r = q

theorem strictAncestor_cons_iff {x y : String} {xs ys : List String} :
    strictAncestor (x :: xs) (y :: ys) ↔ x = y ∧ strictAncestor xs ys := by
  constructor
  · rintro ⟨r, hr, he⟩
    rw [List.cons_append, List.cons.injEq] at he
    exact ⟨he.1, r, hr, he.2⟩
  · rintro ⟨hxy, r, hr, he⟩
    exact ⟨r, hr, by rw [List.cons_append, hxy, he]⟩

theorem strictAncestor_nil_iff {ys : List String} :
    strictAncestor [] ys ↔ ys ≠ [] := by
  constructor
  · rintro ⟨r, hr, he⟩
    simpa [← he] using hr
  · intro h
    exact ⟨ys, h, rfl⟩

theorem not_strictAncestor_of_head_ne {x y : String} {xs ys : List String}
    (h : x ≠ y) : ¬ strictAncestor (x :: xs) (y :: ys) := by
  rw [strictAncestor_cons_iff]
  rintro ⟨h1, -⟩
  exact h h1

/-- Segment-level view of `findObsoleteContent`: the same traversal with the
path bookkeeping done on segment lists instead of dotted strings. -/
def findObsoleteSegs (source target : Obj) : List (List String) :=
  match target with
  | [] => []
  | (k, tv) :: rest =>
    (match lookupKey source k with
     | none => [[k]]
     | some sv =>
       match tv with
       | .obj tE =>
         match sv with
         | .obj sE => (findObsoleteSegs sE tE).map (fun q => k :: q)
         | .str _ => [[k]]
       | .str _ => []) ++ findObsoleteSegs source rest

/-- Recursive specification of pruning: keep exactly the entries of `target`
that are not obsolete with respect to `source`, recursing into entries where
both sides are objects. -/
def pruneObs (source target : Obj) : Obj :=
  match target with
  | [] => []
  | (k, tv) :: rest =>
    (match lookupKey source k with
     | none => []
     | some sv =>
       match tv with
       | .obj tE =>
         match sv with
         | .obj sE => [(k, JSVal.obj (pruneObs sE tE))]
         | .str _ => []
       | .str s => [(k, JSVal.str s)]) ++ pruneObs source rest

/-! ## Case-unfolding equations for the traversals -/

theorem findObsoleteContent_nil (source : Obj) (path : String) :
    findObsoleteContent source [] path = [] := by
  simp [findObsoleteContent]

theorem findObsoleteContent_cons (source : Obj) (k : String) (tv : JSVal) (rest : Obj)
    (path : String) :
    findObsoleteContent source ((k, tv) :: rest) path =
      (match lookupKey source k with
       | none => [if path = "" then k else path ++ "." ++ k]
       | some sv =>
         match tv with
         | .obj tE =>
           match sv with
           | .obj sE => findObsoleteContent sE tE (if path = "" then k else path ++ "." ++ k)
           | .str _ => [if path = "" then k else path ++ "." ++ k]
         | .str _ => []) ++ findObsoleteContent source rest path := by
  rw [findObsoleteContent]

theorem findObsoleteSegs_nil (source : Obj) : findObsoleteSegs source [] = [] := by
  simp [findObsoleteSegs]

theorem findObsoleteSegs_cons (source : Obj) (k : String) (tv : JSVal) (rest : Obj) :
    findObsoleteSegs source ((k, tv) :: rest) =
      (match lookupKey source k with
       | none => [[k]]
       | some sv =>
         match tv with
         | .obj tE =>
           match sv with
           | .obj sE => (findObsoleteSegs sE tE).map (fun q => k :: q)
           | .str _ => [[k]]
         | .str _ => []) ++ findObsoleteSegs source rest := by
  rw [findObsoleteSegs]

theorem pruneObs_nil (source : Obj) : pruneObs source [] = [] := by
  simp [pruneObs]

theorem pruneObs_cons (source : Obj) (k : String) (tv : JSVal) (rest : Obj) :
    pruneObs source ((k, tv) :: rest) =
      (match lookupKey source k with
       | none => []
       | some sv =>
         match tv with
         | .obj tE =>
           match sv with
           | .obj sE => [(k, JSVal.obj (pruneObs sE tE))]
           | .str _ => []
         | .str s => [(k, JSVal.str s)]) ++ pruneObs source rest := by
  rw [pruneObs]

theorem findMissingContent_nil (target : Obj) (path : String) :
    findMissingContent [] target path = [] := by
  simp [findMissingContent]

theorem findMissingContent_cons (k : String) (v : JSVal) (rest target : Obj)
    (path : String) :
    findMissingContent ((k, v) :: rest) target path =
      (match lookupKey target k with
       | none => [(k, v)]
       | some tv =>
         match v with
         | .obj sE =>
           match tv with
           | .obj tE =>
             let nested := findMissingContent sE tE (if path = "" then k else path ++ "." ++ k)
             if nested.isEmpty then [] else [(k, JSVal.obj nested)]
           | .str _ => [(k, v)]
         | .str _ => []) ++ findMissingContent rest target path := by
  rw [findMissingContent]
  cases hx : lookupKey target k with
  | none => simp
  | some tv =>
    cases v with
    | str s => simp
    | obj sE =>
      cases tv with
      | str t => simp
      | obj tE =>
        by_cases hn : (findMissingContent sE tE (if path = "" then k else path ++ "." ++ k)).isEmpty
        · simp [hn]
        · simp [hn]

theorem removePath_nil (o : Obj) : removePath o [] = o := rfl

theorem removePath_single (o : Obj) (k : String) : removePath o [k] = eraseKey o k := rfl

theorem removePath_cons₂ (o : Obj) (k k' : String) (tl : List String) :
    removePath o (k :: k' :: tl) =
      match lookupKey o k with
      | some (.obj inner) => setKey o k (.obj (removePath inner (k' :: tl)))
      | _ => eraseKey o ((k' :: tl).getLastD k) := rfl

theorem navOk_nil (o : Obj) : navOk o [] = true := rfl

theorem navOk_single (o : Obj) (k : String) : navOk o [k] = true := rfl

theorem navOk_cons₂ (o : Obj) (k k' : String) (tl : List String) :
    navOk o (k :: k' :: tl) =
      match lookupKey o k with
      | some (.obj inner) => navOk inner (k' :: tl)
      | _ => false := rfl

theorem getPath_single (o : Obj) (k : String) : getPath o [k] = lookupKey o k := rfl

theorem getPath_cons₂ (o : Obj) (k k' : String) (tl : List String) :
    getPath o (k :: k' :: tl) =
      match lookupKey o k with
      | some (.obj inner) => getPath inner (k' :: tl)
      | _ => none := rfl

/-- Deleting one path never breaks the navigability of a path it is not a
strict ancestor of. -/
theorem navOk_removePath {q : List String} :
    ∀ {p : List String} {T : Obj}, navOk T p = true → navOk T q = true →
      ¬ strictAncestor p q → navOk (removePath T p) q = true := by
  induction q with
  | nil => intro p T _ _ _; rfl
  | cons b qt ih =>
    intro p T hp hq hpq
    cases qt with
    | nil => rfl
    | cons q1 q2 =>
      rw [navOk_cons₂] at hq
      cases hlb : lookupKey T b with
      | none => rw [hlb] at hq; simp at hq
      | some vb =>
        cases vb with
        | str s => rw [hlb] at hq; simp at hq
        | obj ib =>
          rw [hlb] at hq
          simp only at hq
          cases p with
          | nil => rw [removePath_nil, navOk_cons₂, hlb]; exact hq
          | cons a pt =>
            cases pt with
            | nil =>
              rw [removePath_single]
              by_cases hab : a = b
              · subst hab
                exact absurd ⟨q1 :: q2, by simp, rfl⟩ hpq
              · rw [navOk_cons₂, lookupKey_eraseKey_ne T a (fun h => hab h.symm), hlb]
                exact hq
            | cons p1 p2 =>
              rw [navOk_cons₂] at hp
              cases hla : lookupKey T a with
              | none => rw [hla] at hp; simp at hp
              | some va =>
                cases va with
                | str s => rw [hla] at hp; simp at hp
                | obj ia =>
                  rw [hla] at hp
                  simp only at hp
                  rw [removePath_cons₂, hla]
                  by_cases hab : a = b
                  · subst hab
                    have hiab : ia = ib := by
                      rw [hla] at hlb
                      cases hlb
                      rfl
                    subst hiab
                    rw [navOk_cons₂, lookupKey_setKey_self]
                    simp only
                    refine ih hp hq ?_
                    intro hsa
                    exact hpq (strictAncestor_cons_iff.2 ⟨rfl, hsa⟩)
                  · rw [navOk_cons₂, lookupKey_setKey_ne T a _ (fun h => hab h.symm), hlb]
                    exact hq

/-- One removal step below a different head key leaves the head binding
untouched, provided the path's navigation does not `break` (the `break` case
may otherwise delete the path's final segment at the root). -/
theorem removePath_cons_head_ne {k : String} (v : JSVal) {rest : Obj} {k₀ : String}
    {tl : List String} (hne : k₀ ≠ k) (hnav : navOk rest (k₀ :: tl) = true) :
    removePath ((k, v) :: rest) (k₀ :: tl) = (k, v) :: removePath rest (k₀ :: tl) := by
  cases tl with
  | nil =>
    rw [removePath_single, removePath_single, eraseKey_cons_ne (fun h => hne h.symm)]
  | cons t1 t2 =>
    rw [navOk_cons₂] at hnav
    cases hl : lookupKey rest k₀ with
    | none => rw [hl] at hnav; simp at hnav
    | some v₀ =>
      cases v₀ with
      | str s => rw [hl] at hnav; simp at hnav
      | obj inner =>
        rw [removePath_cons₂, removePath_cons₂, hl, lookupKey_cons,
          if_neg (fun h => hne h.symm), hl]
        simp only
        rw [setKey_cons_ne (fun h => hne h.symm)]

/-- Processing a batch of paths that all start below other keys and all
navigate without `break`ing leaves the head binding untouched. -/
theorem foldl_removePath_cons_head {k : String} {v : JSVal} :
    ∀ {ps : List (List String)} {rest : Obj},
      (∀ p ∈ ps, ∃ k₀ tl, p = k₀ :: tl ∧ k₀ ≠ k ∧ navOk rest p = true) →
      ps.Pairwise (fun a b => ¬ strictAncestor a b) →
      List.foldl removePath ((k, v) :: rest) ps = (k, v) :: List.foldl removePath rest ps := by
  intro ps
  induction ps with
  | nil => intro rest _ _; rfl
  | cons p₀ ps' ih =>
    intro rest hshape hpair
    obtain ⟨k₀, tl, rfl, hne, hnav⟩ := hshape p₀ (List.mem_cons_self _ _)
    rw [List.foldl_cons, List.foldl_cons,
      removePath_cons_head_ne v hne hnav]
    rw [List.pairwise_cons] at hpair
    refine ih ?_ hpair.2
    intro p hp
    obtain ⟨k₁, tl₁, rfl, hne₁, hnav₁⟩ := hshape p (List.mem_cons_of_mem _ hp)
    exact ⟨k₁, tl₁, rfl, hne₁, navOk_removePath hnav hnav₁ (hpair.1 _ hp)⟩

/-- Processing a batch of paths that all descend through the head key `k`
amounts to processing their tails inside the head's object value. -/
theorem foldl_removePath_under {k : String} {rest : Obj} :
    ∀ {qs : List (List String)} {tE : Obj}, (∀ q ∈ qs, q ≠ []) →
      List.foldl removePath ((k, .obj tE) :: rest) (qs.map (fun q => k :: q)) =
        (k, .obj (List.foldl removePath tE qs)) :: rest := by
  intro qs
  induction qs with
  | nil => intro tE _; rfl
  | cons q₀ qs' ih =>
    intro tE hne
    cases hq₀ : q₀ with
    | nil => exact absurd hq₀ (hne q₀ (List.mem_cons_self _ _))
    | cons t1 t2 =>
      rw [List.map_cons, List.foldl_cons, removePath_cons₂, lookupKey_cons, if_pos rfl]
      simp only
      rw [setKey_cons_self]
      exact ih (fun q hq => hne q (List.mem_cons_of_mem _ hq))

theorem one_le_sizeVal (v : JSVal) : 1 ≤ sizeVal v := by
  cases v with
  | str s => simp [sizeVal]
  | obj es => simp [sizeVal]

theorem navOk_cons_ne {k k₀ : String} (hne : k₀ ≠ k) (v : JSVal) (rest : Obj)
    (tl : List String) : navOk ((k, v) :: rest) (k₀ :: tl) = navOk rest (k₀ :: tl) := by
  cases tl with
  | nil => rfl
  | cons t1 t2 =>
    rw [navOk_cons₂, navOk_cons₂, lookupKey_cons, if_neg (fun h => hne h.symm)]

theorem getPath_cons_ne {k k₀ : String} (hne : k₀ ≠ k) (v : JSVal) (rest : Obj)
    (tl : List String) : getPath ((k, v) :: rest) (k₀ :: tl) = getPath rest (k₀ :: tl) := by
  cases tl with
  | nil => rw [getPath_single, getPath_single, lookupKey_cons, if_neg (fun h => hne h.symm)]
  | cons t1 t2 =>
    rw [getPath_cons₂, getPath_cons₂, lookupKey_cons, if_neg (fun h => hne h.symm)]

/-- Every emitted obsolete path is nonempty and starts at a key of the
target. -/
theorem findObsoleteSegs_shape : ∀ {S T : Obj} {p : List String},
    p ∈ findObsoleteSegs S T → ∃ k tl, p = k :: tl ∧ k ∈ keysOf T := by
  intro S T
  induction T with
  | nil => intro p hp; rw [findObsoleteSegs_nil] at hp; simp at hp
  | cons e rest ih =>
    obtain ⟨k, tv⟩ := e
    intro p hp
    rw [findObsoleteSegs_cons, List.mem_append] at hp
    rcases hp with hp | hp
    · cases hl : lookupKey S k with
      | none =>
        rw [hl] at hp
        simp only [List.mem_singleton] at hp
        exact ⟨k, [], hp, by simp [keysOf_cons]⟩
      | some sv =>
        rw [hl] at hp
        cases tv with
        | str s => simp at hp
        | obj tE =>
          cases sv with
          | str s =>
            simp only [List.mem_singleton] at hp
            exact ⟨k, [], hp, by simp [keysOf_cons]⟩
          | obj sE =>
            simp only [List.mem_map] at hp
            obtain ⟨q, -, rfl⟩ := hp
            exact ⟨k, q, rfl, by simp [keysOf_cons]⟩
    · obtain ⟨k', tl, rfl, hk'⟩ := ih hp
      exact ⟨k', tl, rfl, by simp [keysOf_cons, hk']⟩

/-- Every emitted obsolete path navigates to its final segment without
`break`ing. -/
theorem findObsoleteSegs_navOk : ∀ (n : Nat) {S T : Obj}, sizeObj T ≤ n →
    wfObj T = true → ∀ p ∈ findObsoleteSegs S T, navOk T p = true := by
  intro n
  induction n with
  | zero =>
    intro S T hn _ p hp
    cases T with
    | nil => rw [findObsoleteSegs_nil] at hp; simp at hp
    | cons e rest =>
      obtain ⟨k, tv⟩ := e
      have h1 := one_le_sizeVal tv
      simp only [sizeObj] at hn
      omega
  | succ m ih =>
    intro S T hn hwf p hp
    cases T with
    | nil => rw [findObsoleteSegs_nil] at hp; simp at hp
    | cons e rest =>
      obtain ⟨k, tv⟩ := e
      have hsz : sizeObj ((k, tv) :: rest) = 1 + sizeVal tv + sizeObj rest := by
        simp [sizeObj]
      rw [wfObj_cons_iff] at hwf
      rw [findObsoleteSegs_cons, List.mem_append] at hp
      rcases hp with hp | hp
      · cases hl : lookupKey S k with
        | none =>
          rw [hl] at hp
          simp only [List.mem_singleton] at hp
          subst hp
          exact navOk_single _ _
        | some sv =>
          rw [hl] at hp
          cases tv with
          | str s => simp at hp
          | obj tE =>
            cases sv with
            | str s =>
              simp only [List.mem_singleton] at hp
              subst hp
              exact navOk_single _ _
            | obj sE =>
              simp only [List.mem_map] at hp
              obtain ⟨q, hq, rfl⟩ := hp
              obtain ⟨k₁, tl₁, rfl, -⟩ := findObsoleteSegs_shape hq
              rw [navOk_cons₂, lookupKey_cons, if_pos rfl]
              simp only
              have htE : sizeObj tE ≤ m := by
                have : sizeVal (JSVal.obj tE) = 1 + sizeObj tE := by simp [sizeVal]
                omega
              have hwfE : wfObj tE = true := by
                have := hwf.2.1
                simpa [wfVal] using this
              exact ih htE hwfE _ hq
      · obtain ⟨k', tl, hpe, hk'⟩ := findObsoleteSegs_shape hp
        subst hpe
        have hne : k' ≠ k := by
          intro h
          subst h
          exact hwf.1 hk'
        rw [navOk_cons_ne hne]
        have hrest : sizeObj rest ≤ m := by
          have h1 := one_le_sizeVal tv
          omega
        exact ih hrest hwf.2.2 _ hp

/-- No emitted obsolete path is a strict ancestor of another: only the
topmost node of each obsolete subtree is listed. -/
theorem findObsoleteSegs_pairwise : ∀ (n : Nat) {S T : Obj}, sizeObj T ≤ n →
    wfObj T = true →
    (findObsoleteSegs S T).Pairwise
      (fun a b => ¬ strictAncestor a b ∧ ¬ strictAncestor b a) := by
  intro n
  induction n with
  | zero =>
    intro S T hn _
    cases T with
    | nil => rw [findObsoleteSegs_nil]; exact List.Pairwise.nil
    | cons e rest =>
      obtain ⟨k, tv⟩ := e
      have h1 := one_le_sizeVal tv
      simp only [sizeObj] at hn
      omega
  | succ m ih =>
    intro S T hn hwf
    cases T with
    | nil => rw [findObsoleteSegs_nil]; exact List.Pairwise.nil
    | cons e rest =>
      obtain ⟨k, tv⟩ := e
      simp only [sizeObj] at hn
      rw [wfObj_cons_iff] at hwf
      have hrest : sizeObj rest ≤ m := by
        have h1 := one_le_sizeVal tv
        omega
      rw [findObsoleteSegs_cons, List.pairwise_append]
      refine ⟨?_, ih hrest hwf.2.2, ?_⟩
      case _ =>
        cases hl : lookupKey S k with
        | none => simp
        | some sv =>
          cases tv with
          | str s => simp
          | obj tE =>
            cases sv with
            | str s => simp
            | obj sE =>
              rw [List.pairwise_map]
              have htE : sizeObj tE ≤ m := by
                have : sizeVal (JSVal.obj tE) = 1 + sizeObj tE := by simp [sizeVal]
                omega
              have hwfE : wfObj tE = true := by
                have := hwf.2.1
                simpa [wfVal] using this
              refine (ih htE hwfE).imp ?_
              intro a b hab
              constructor
              · intro hsa
                exact hab.1 (strictAncestor_cons_iff.1 hsa).2
              · intro hsa
                exact hab.2 (strictAncestor_cons_iff.1 hsa).2
      case _ =>
        intro a ha b hb
        obtain ⟨k', tl', rfl, hk'⟩ := findObsoleteSegs_shape hb
        have hne : k ≠ k' := by
          intro h
          subst h
          exact hwf.1 hk'
        have hahead : ∃ tl, a = k :: tl := by
          cases hl : lookupKey S k with
          | none =>
            rw [hl] at ha
            simp only [List.mem_singleton] at ha
            exact ⟨[], ha⟩
          | some sv =>
            rw [hl] at ha
            cases tv with
            | str s => simp at ha
            | obj tE =>
              cases sv with
              | str s =>
                simp only [List.mem_singleton] at ha
                exact ⟨[], ha⟩
              | obj sE =>
                simp only [List.mem_map] at ha
                obtain ⟨q, -, rfl⟩ := ha
                exact ⟨q, rfl⟩
        obtain ⟨tl, rfl⟩ := hahead
        exact ⟨not_strictAncestor_of_head_ne hne,
          not_strictAncestor_of_head_ne (fun h => hne h.symm)⟩

/-- Every strict ancestor of an emitted obsolete path denotes an object in
the target tree. -/
theorem findObsoleteSegs_ancestors : ∀ (n : Nat) {S T : Obj}, sizeObj T ≤ n →
    wfObj T = true → ∀ p ∈ findObsoleteSegs S T, ∀ q, q ≠ [] →
      strictAncestor q p → ∃ e, getPath T q = some (.obj e) := by
  intro n
  induction n with
  | zero =>
    intro S T hn _ p hp
    cases T with
    | nil => rw [findObsoleteSegs_nil] at hp; simp at hp
    | cons e rest =>
      obtain ⟨k, tv⟩ := e
      have h1 := one_le_sizeVal tv
      simp only [sizeObj] at hn
      omega
  | succ m ih =>
    intro S T hn hwf p hp q hqne hsa
    cases T with
    | nil => rw [findObsoleteSegs_nil] at hp; simp at hp
    | cons e rest =>
      obtain ⟨k, tv⟩ := e
      simp only [sizeObj] at hn
      rw [wfObj_cons_iff] at hwf
      rw [findObsoleteSegs_cons, List.mem_append] at hp
      rcases hp with hp | hp
      · have hcase : p = [k] ∨
            (∃ tE sE q₀, tv = JSVal.obj tE ∧ lookupKey S k = some (JSVal.obj sE) ∧
              q₀ ∈ findObsoleteSegs sE tE ∧ p = k :: q₀) := by
          cases hl : lookupKey S k with
          | none =>
            rw [hl] at hp
            simp only [List.mem_singleton] at hp
            exact Or.inl hp
          | some sv =>
            rw [hl] at hp
            cases tv with
            | str s => simp at hp
            | obj tE =>
              cases sv with
              | str s =>
                simp only [List.mem_singleton] at hp
                exact Or.inl hp
              | obj sE =>
                simp only [List.mem_map] at hp
                obtain ⟨q₀, hq₀, rfl⟩ := hp
                exact Or.inr ⟨tE, sE, q₀, rfl, rfl, hq₀, rfl⟩
        rcases hcase with rfl | ⟨tE, sE, q₀, rfl, hl, hq₀, rfl⟩
        · obtain ⟨r, hr, he⟩ := hsa
          have := congrArg List.length he
          simp only [List.length_append, List.length_singleton] at this
          have hq1 : 1 ≤ q.length := List.length_pos.2 hqne
          have hr1 : 1 ≤ r.length := List.length_pos.2 hr
          omega
        · cases q with
          | nil => exact absurd rfl hqne
          | cons qh qt =>
            obtain ⟨r, hr, he⟩ := hsa
            rw [List.cons_append, List.cons.injEq] at he
            obtain ⟨rfl, he2⟩ := he
            cases qt with
            | nil =>
              refine ⟨tE, ?_⟩
              rw [getPath_single, lookupKey_cons, if_pos rfl]
            | cons t1 t2 =>
              have htE : sizeObj tE ≤ m := by
                have : sizeVal (JSVal.obj tE) = 1 + sizeObj tE := by simp [sizeVal]
                omega
              have hwfE : wfObj tE = true := by
                have := hwf.2.1
                simpa [wfVal] using this
              obtain ⟨e, hgp⟩ := ih htE hwfE q₀ hq₀ (t1 :: t2) (by simp) ⟨r, hr, he2⟩
              refine ⟨e, ?_⟩
              rw [getPath_cons₂, lookupKey_cons, if_pos rfl]
              simpa using hgp
      · obtain ⟨k', tl', hpe, hk'⟩ := findObsoleteSegs_shape hp
        have hne : k' ≠ k := by
          intro h
          subst h
          exact hwf.1 hk'
        have hrest : sizeObj rest ≤ m := by
          have h1 := one_le_sizeVal tv
          omega
        obtain ⟨e, hgp⟩ := ih hrest hwf.2.2 p hp q hqne hsa
        cases q with
        | nil => exact absurd rfl hqne
        | cons qh qt =>
          have hqh : qh = k' := by
            obtain ⟨r, hr, he⟩ := hsa
            rw [hpe, List.cons_append, List.cons.injEq] at he
            exact he.1
          subst hqh
          refine ⟨e, ?_⟩
          rw [getPath_cons_ne hne]
          exact hgp

/-- Batch removal of the emitted obsolete paths computes the recursive
pruning. -/
theorem foldl_removePath_findObsoleteSegs : ∀ (n : Nat) {S T : Obj}, sizeObj T ≤ n →
    wfObj T = true →
    List.foldl removePath T (findObsoleteSegs S T) = pruneObs S T := by
  intro n
  induction n with
  | zero =>
    intro S T hn _
    cases T with
    | nil => rw [findObsoleteSegs_nil, pruneObs_nil]; rfl
    | cons e rest =>
      obtain ⟨k, tv⟩ := e
      have h1 := one_le_sizeVal tv
      simp only [sizeObj] at hn
      omega
  | succ m ih =>
    intro S T hn hwf
    cases T with
    | nil => rw [findObsoleteSegs_nil, pruneObs_nil]; rfl
    | cons e rest =>
      obtain ⟨k, tv⟩ := e
      simp only [sizeObj] at hn
      rw [wfObj_cons_iff] at hwf
      have hrest : sizeObj rest ≤ m := by
        have h1 := one_le_sizeVal tv
        omega
      have hshape : ∀ p ∈ findObsoleteSegs S rest,
          ∃ k₀ tl, p = k₀ :: tl ∧ k₀ ≠ k ∧ navOk rest p = true := by
        intro p hp
        obtain ⟨k₀, tl, rfl, hk₀⟩ := findObsoleteSegs_shape hp
        refine ⟨k₀, tl, rfl, ?_, findObsoleteSegs_navOk m hrest hwf.2.2 _ hp⟩
        intro h
        subst h
        exact hwf.1 hk₀
      have hpair : (findObsoleteSegs S rest).Pairwise (fun a b => ¬ strictAncestor a b) :=
        (findObsoleteSegs_pairwise m hrest hwf.2.2).imp (fun h => h.1)
      rw [findObsoleteSegs_cons, pruneObs_cons, List.foldl_append]
      cases hl : lookupKey S k with
      | none =>
        simp only
        rw [List.foldl_cons, List.foldl_nil, removePath_single, eraseKey_cons_self,
          List.nil_append]
        exact ih hrest hwf.2.2
      | some sv =>
        cases tv with
        | str s =>
          simp only
          rw [List.foldl_nil, List.singleton_append,
            foldl_removePath_cons_head hshape hpair]
          rw [ih hrest hwf.2.2]
        | obj tE =>
          cases sv with
          | str s =>
            simp only
            rw [List.foldl_cons, List.foldl_nil, removePath_single, eraseKey_cons_self,
              List.nil_append]
            exact ih hrest hwf.2.2
          | obj sE =>
            simp only
            have htE : sizeObj tE ≤ m := by
              have : sizeVal (JSVal.obj tE) = 1 + sizeObj tE := by simp [sizeVal]
              omega
            have hwfE : wfObj tE = true := by
              have := hwf.2.1
              simpa [wfVal] using this
            have hnonempty : ∀ q ∈ findObsoleteSegs sE tE, q ≠ [] := by
              intro q hq
              obtain ⟨k₁, tl₁, rfl, -⟩ := findObsoleteSegs_shape hq
              simp
            rw [foldl_removePath_under hnonempty, ih htE hwfE,
              foldl_removePath_cons_head hshape hpair, ih hrest hwf.2.2,
              List.singleton_append]

/-- The pruned tree has no obsolete content left. -/
theorem findObsoleteContent_pruneObs : ∀ (n : Nat) {S T : Obj} (path : String),
    sizeObj T ≤ n → findObsoleteContent S (pruneObs S T) path = [] := by
  intro n
  induction n with
  | zero =>
    intro S T path hn
    cases T with
    | nil => rw [pruneObs_nil, findObsoleteContent_nil]
    | cons e rest =>
      obtain ⟨k, tv⟩ := e
      have h1 := one_le_sizeVal tv
      simp only [sizeObj] at hn
      omega
  | succ m ih =>
    intro S T path hn
    cases T with
    | nil => rw [pruneObs_nil, findObsoleteContent_nil]
    | cons e rest =>
      obtain ⟨k, tv⟩ := e
      simp only [sizeObj] at hn
      have hrest : sizeObj rest ≤ m := by
        have h1 := one_le_sizeVal tv
        omega
      rw [pruneObs_cons]
      cases hl : lookupKey S k with
      | none =>
        simp only [List.nil_append]
        exact ih path hrest
      | some sv =>
        cases tv with
        | str s =>
          simp only [List.singleton_append]
          rw [findObsoleteContent_cons, hl]
          simp only [List.nil_append]
          exact ih path hrest
        | obj tE =>
          cases sv with
          | str s =>
            simp only [List.nil_append]
            exact ih path hrest
          | obj sE =>
            simp only [List.singleton_append]
            rw [findObsoleteContent_cons, hl]
            simp only
            have htE : sizeObj tE ≤ m := by
              have : sizeVal (JSVal.obj tE) = 1 + sizeObj tE := by simp [sizeVal]
              omega
            rw [ih _ htE, ih path hrest, List.nil_append]

theorem splitDots_currentPath {path k : String} (hk : k ≠ "")
    (hdf : ∀ c ∈ k.data, c ≠ '.') :
    splitDots (if path = "" then k else path ++ "." ++ k) = pathSegs path ++ [k] := by
  by_cases hs : path = ""
  · rw [if_pos hs, splitDots_of_dotFree hdf, pathSegs, if_pos hs]
    simp
  · rw [if_neg hs, splitDots_append_dot, splitDots_of_dotFree hdf, pathSegs, if_neg hs]

/-- The dotted-string traversal splits back to the segment-level traversal
when every key is nonempty and dot-free. -/
theorem map_splitDots_findObsoleteContent : ∀ (n : Nat) {S T : Obj} (path : String),
    sizeObj T ≤ n → goodKeys T = true →
    (findObsoleteContent S T path).map splitDots =
      (findObsoleteSegs S T).map (fun q => pathSegs path ++ q) := by
  intro n
  induction n with
  | zero =>
    intro S T path hn _
    cases T with
    | nil => rw [findObsoleteContent_nil, findObsoleteSegs_nil]; rfl
    | cons e rest =>
      obtain ⟨k, tv⟩ := e
      have h1 := one_le_sizeVal tv
      simp only [sizeObj] at hn
      omega
  | succ m ih =>
    intro S T path hn hg
    cases T with
    | nil => rw [findObsoleteContent_nil, findObsoleteSegs_nil]; rfl
    | cons e rest =>
      obtain ⟨k, tv⟩ := e
      simp only [sizeObj] at hn
      rw [goodKeys_cons_iff] at hg
      obtain ⟨hk, hdf, hgv, hgrest⟩ := hg
      have hrest : sizeObj rest ≤ m := by
        have h1 := one_le_sizeVal tv
        omega
      rw [findObsoleteContent_cons, findObsoleteSegs_cons, List.map_append,
        List.map_append, ih path hrest hgrest]
      congr 1
      cases hl : lookupKey S k with
      | none =>
        simp only [List.map_cons, List.map_nil]
        rw [splitDots_currentPath hk hdf]
      | some sv =>
        cases tv with
        | str s => simp
        | obj tE =>
          cases sv with
          | str s =>
            simp only [List.map_cons, List.map_nil]
            rw [splitDots_currentPath hk hdf]
          | obj sE =>
            simp only
            have htE : sizeObj tE ≤ m := by
              have : sizeVal (JSVal.obj tE) = 1 + sizeObj tE := by simp [sizeVal]
              omega
            have hgE : goodKeys tE = true := by simpa [goodVal] using hgv
            rw [ih _ htE hgE, pathSegs_step hk hdf, List.map_map]
            refine List.map_congr_left ?_
            intro q hq
            simp

/-- Removing the dotted obsolete paths of `findObsoleteContent` computes the
recursive pruning, for well-formed trees with dot-free nonempty keys. -/
theorem removeObsoleteKeys_eq_pruneObs {S T : Obj} (hwf : wfObj T = true)
    (hg : goodKeys T = true) :
    removeObsoleteKeys T (findObsoleteContent S T "") = pruneObs S T := by
  rw [removeObsoleteKeys]
  have h1 : (findObsoleteContent S T "").foldl
      (fun acc keyPath => removePath acc (splitDots keyPath)) T
      = List.foldl removePath T ((findObsoleteContent S T "").map splitDots) := by
    rw [List.foldl_map]
  rw [h1, map_splitDots_findObsoleteContent (sizeObj T) "" le_rfl hg]
  have h2 : pathSegs "" = [] := by simp [pathSegs]
  rw [h2]
  simp only [List.nil_append, List.map_id']
  exact foldl_removePath_findObsoleteSegs (sizeObj T) le_rfl hwf

/-! ## Self-diff lemmas -/

theorem findMissingContent_eq_nil_of_sub : ∀ (n : Nat) {S T : Obj} (path : String),
    sizeObj S ≤ n → wfObj S = true →
    (∀ k v, (k, v) ∈ S → lookupKey T k = some v) →
    findMissingContent S T path = [] := by
  intro n
  induction n with
  | zero =>
    intro S T path hn _ _
    cases S with
    | nil => rw [findMissingContent_nil]
    | cons e rest =>
      obtain ⟨k, v⟩ := e
      have h1 := one_le_sizeVal v
      simp only [sizeObj] at hn
      omega
  | succ m ih =>
    intro S T path hn hwf hsub
    cases S with
    | nil => rw [findMissingContent_nil]
    | cons e rest =>
      obtain ⟨k, v⟩ := e
      simp only [sizeObj] at hn
      rw [wfObj_cons_iff] at hwf
      have hrest : sizeObj rest ≤ m := by
        have h1 := one_le_sizeVal v
        omega
      have htail : findMissingContent rest T path = [] :=
        ih path hrest hwf.2.2 (fun k' v' h => hsub k' v' (List.mem_cons_of_mem _ h))
      have hk : lookupKey T k = some v := hsub k v (List.mem_cons_self _ _)
      rw [findMissingContent_cons, hk, htail]
      cases v with
      | str s => simp
      | obj sE =>
        have hsE : sizeObj sE ≤ m := by
          have : sizeVal (JSVal.obj sE) = 1 + sizeObj sE := by simp [sizeVal]
          omega
        have hwfE : wfObj sE = true := by
          have := hwf.2.1
          simpa [wfVal] using this
        have hnested : findMissingContent sE sE
            (if path = "" then k else path ++ "." ++ k) = [] :=
          ih _ hsE hwfE (fun k' v' h => lookupKey_self_of_wf hwfE h)
        simp [hnested]

theorem findObsoleteContent_eq_nil_of_sub : ∀ (n : Nat) {S T : Obj} (path : String),
    sizeObj T ≤ n → wfObj T = true →
    (∀ k v, (k, v) ∈ T → lookupKey S k = some v) →
    findObsoleteContent S T path = [] := by
  intro n
  induction n with
  | zero =>
    intro S T path hn _ _
    cases T with
    | nil => rw [findObsoleteContent_nil]
    | cons e rest =>
      obtain ⟨k, tv⟩ := e
      have h1 := one_le_sizeVal tv
      simp only [sizeObj] at hn
      omega
  | succ m ih =>
    intro S T path hn hwf hsub
    cases T with
    | nil => rw [findObsoleteContent_nil]
    | cons e rest =>
      obtain ⟨k, tv⟩ := e
      simp only [sizeObj] at hn
      rw [wfObj_cons_iff] at hwf
      have hrest : sizeObj rest ≤ m := by
        have h1 := one_le_sizeVal tv
        omega
      have htail : findObsoleteContent S rest path = [] :=
        ih path hrest hwf.2.2 (fun k' v' h => hsub k' v' (List.mem_cons_of_mem _ h))
      have hk : lookupKey S k = some tv := hsub k tv (List.mem_cons_self _ _)
      rw [findObsoleteContent_cons, hk, htail]
      cases tv with
      | str s => simp
      | obj tE =>
        have htE : sizeObj tE ≤ m := by
          have : sizeVal (JSVal.obj tE) = 1 + sizeObj tE := by simp [sizeVal]
          omega
        have hwfE : wfObj tE = true := by
          have := hwf.2.1
          simpa [wfVal] using this
        have hnested : findObsoleteContent tE tE
            (if path = "" then k else path ++ "." ++ k) = [] :=
          ih _ htE hwfE (fun k' v' h => lookupKey_self_of_wf hwfE h)
        simp [hnested]

/-! ## Missing-content structure lemmas -/

theorem keysOf_append (a b : Obj) : keysOf (a ++ b) = keysOf a ++ keysOf b := by
  simp [keysOf]

theorem keysOf_findMissingContent_sub : ∀ {S T : Obj} {path : String} {k : String},
    k ∈ keysOf (findMissingContent S T path) → k ∈ keysOf S := by
  intro S
  induction S with
  | nil =>
    intro T path k h
    rw [findMissingContent_nil] at h
    simp [keysOf] at h
  | cons e rest ih =>
    obtain ⟨k₀, v₀⟩ := e
    intro T path k h
    rw [findMissingContent_cons, keysOf_append, List.mem_append] at h
    rw [keysOf_cons, List.mem_cons]
    rcases h with h | h
    · left
      cases hl : lookupKey T k₀ with
      | none =>
        rw [hl] at h
        simpa [keysOf] using h
      | some tv =>
        rw [hl] at h
        cases v₀ with
        | str s => simp [keysOf] at h
        | obj sE =>
          cases tv with
          | str t => simpa [keysOf] using h
          | obj tE =>
            simp only at h
            by_cases hn : (findMissingContent sE tE
                (if path = "" then k₀ else path ++ "." ++ k₀)).isEmpty
            · rw [if_pos hn] at h
              simp [keysOf] at h
            · rw [if_neg hn] at h
              simpa [keysOf] using h
    · exact Or.inr (ih h)

/-- A key bound to a leaf in a well-formed source and present in the target
never appears in the missing content, whatever the two leaf values are. -/
theorem lookupKey_findMissingContent_of_leaf :
    ∀ {S T : Obj} {path k : String} {a b : String},
      wfObj S = true → (k, JSVal.str a) ∈ S → lookupKey T k = some (JSVal.str b) →
      lookupKey (findMissingContent S T path) k = none := by
  intro S
  induction S with
  | nil =>
    intro T path k a b _ hmem _
    simp at hmem
  | cons e rest ih =>
    obtain ⟨k₀, v₀⟩ := e
    intro T path k a b hwf hmem hT
    rw [wfObj_cons_iff] at hwf
    by_cases hk : k = k₀
    · subst hk
      have hv : v₀ = JSVal.str a := by
        rcases List.mem_cons.1 hmem with h | h
        · exact (congrArg Prod.snd h).symm
        · exact absurd (List.mem_map_of_mem Prod.fst h) hwf.1
      subst hv
      rw [findMissingContent_cons, hT]
      simp only [List.nil_append]
      apply lookupKey_eq_none_of_notMem
      intro hmem'
      exact hwf.1 (keysOf_findMissingContent_sub hmem')
    · have hmem' : (k, JSVal.str a) ∈ rest := by
        rcases List.mem_cons.1 hmem with h | h
        · exact absurd (congrArg Prod.fst h) hk
        · exact h
      rw [findMissingContent_cons]
      have htail := @ih T path k a b hwf.2.2 hmem' hT
      cases hl : lookupKey T k₀ with
      | none =>
        rw [List.singleton_append, lookupKey_cons, if_neg (fun h => hk h.symm)]
        exact htail
      | some tv =>
        cases v₀ with
        | str s =>
          simp only [List.nil_append]
          exact htail
        | obj sE =>
          cases tv with
          | str t =>
            rw [List.singleton_append, lookupKey_cons, if_neg (fun h => hk h.symm)]
            exact htail
          | obj tE =>
            simp only
            by_cases hn : (findMissingContent sE tE
                (if path = "" then k₀ else path ++ "." ++ k₀)).isEmpty
            · rw [if_pos hn, List.nil_append]
              exact htail
            · rw [if_neg hn, List.singleton_append, lookupKey_cons,
                if_neg (fun h => hk h.symm)]
              exact htail

/-! ## Merge lemmas -/

theorem deepMerge_nil_right (target : Obj) : deepMerge target [] = target := by
  rw [deepMerge]

theorem deepMerge_cons_str (target : Obj) (k s : String) (rest : Obj) :
    deepMerge target ((k, .str s) :: rest) = deepMerge (setKey target k (.str s)) rest := by
  rw [deepMerge]

theorem deepMerge_cons_obj_obj {target : Obj} {k : String} {tE : Obj} (sE : Obj) (rest : Obj)
    (h : lookupKey target k = some (.obj tE)) :
    deepMerge target ((k, .obj sE) :: rest) =
      deepMerge (setKey target k (.obj (deepMerge tE sE))) rest := by
  rw [deepMerge, h]

theorem deepMerge_cons_obj_none {target : Obj} {k : String} (sE : Obj) (rest : Obj)
    (h : lookupKey target k = none) :
    deepMerge target ((k, .obj sE) :: rest) =
      deepMerge (setKey target k (.obj sE)) rest := by
  rw [deepMerge, h]

theorem deepMerge_cons_obj_str {target : Obj} {k : String} (sE : Obj) (rest : Obj)
    {t : String} (h : lookupKey target k = some (.str t)) :
    deepMerge target ((k, .obj sE) :: rest) =
      deepMerge (setKey target k (.obj sE)) rest := by
  rw [deepMerge, h]

theorem setKey_eq_append_of_lookup_none {acc : Obj} {k : String}
    (h : lookupKey acc k = none) (v : JSVal) : setKey acc k v = acc ++ [(k, v)] := by
  induction acc with
  | nil => rfl
  | cons e rest ih =>
    obtain ⟨k₀, v₀⟩ := e
    rw [lookupKey_cons] at h
    by_cases hk : k₀ = k
    · rw [if_pos hk] at h
      exact absurd h (by simp)
    · rw [if_neg hk] at h
      rw [setKey_cons_ne hk, ih h, List.cons_append]

theorem lookupKey_append_of_none {acc : Obj} {k : String}
    (h : lookupKey acc k = none) (b : Obj) : lookupKey (acc ++ b) k = lookupKey b k := by
  induction acc with
  | nil => rfl
  | cons e rest ih =>
    obtain ⟨k₀, v₀⟩ := e
    rw [lookupKey_cons] at h
    by_cases hk : k₀ = k
    · rw [if_pos hk] at h
      exact absurd h (by simp)
    · rw [if_neg hk] at h
      rw [List.cons_append, lookupKey_cons, if_neg hk]
      exact ih h

theorem deepMerge_of_fresh : ∀ {M acc : Obj},
    (∀ k ∈ keysOf M, lookupKey acc k = none) → wfObj M = true →
    deepMerge acc M = acc ++ M := by
  intro M
  induction M with
  | nil => intro acc _ _; rw [deepMerge_nil_right, List.append_nil]
  | cons e rest ih =>
    obtain ⟨k, sv⟩ := e
    intro acc hfresh hwf
    rw [wfObj_cons_iff] at hwf
    have hk : lookupKey acc k = none := hfresh k (by simp [keysOf_cons])
    have hstep : deepMerge acc ((k, sv) :: rest) = deepMerge (setKey acc k sv) rest := by
      cases sv with
      | str s => rw [deepMerge_cons_str]
      | obj sE => rw [deepMerge_cons_obj_none sE rest hk]
    rw [hstep, setKey_eq_append_of_lookup_none hk]
    have hfresh' : ∀ k' ∈ keysOf rest, lookupKey (acc ++ [(k, sv)]) k' = none := by
      intro k' hk'
      have hne : k ≠ k' := by
        intro h
        subst h
        exact hwf.1 hk'
      rw [lookupKey_append_of_none (hfresh k' (by simp [keysOf_cons, hk'])),
        lookupKey_cons, if_neg hne]
      rfl
    rw [ih hfresh' hwf.2.2, List.append_assoc, List.singleton_append]

/-! ## Sub-forest lemmas for the missing content -/

theorem lookupKey_findMissingContent :
    ∀ {S T : Obj} {path k : String} {mv : JSVal}, wfObj S = true →
      lookupKey (findMissingContent S T path) k = some mv →
      ∃ sv, lookupKey S k = some sv ∧
        (mv = sv ∨ ∃ sE tE p', sv = JSVal.obj sE ∧
          mv = JSVal.obj (findMissingContent sE tE p')) := by
  intro S
  induction S with
  | nil =>
    intro T path k mv _ h
    rw [findMissingContent_nil] at h
    simp [lookupKey] at h
  | cons e rest ih =>
    obtain ⟨k₀, v₀⟩ := e
    intro T path k mv hwf h
    rw [wfObj_cons_iff] at hwf
    by_cases hk : k₀ = k
    · subst hk
      rw [findMissingContent_cons] at h
      have hnotail : lookupKey (findMissingContent rest T path) k₀ = none := by
        apply lookupKey_eq_none_of_notMem
        intro hmem
        exact hwf.1 (keysOf_findMissingContent_sub hmem)
      cases hl : lookupKey T k₀ with
      | none =>
        rw [hl, List.singleton_append, lookupKey_cons, if_pos rfl] at h
        cases h
        exact ⟨v₀, by rw [lookupKey_cons, if_pos rfl], Or.inl rfl⟩
      | some tv =>
        rw [hl] at h
        cases v₀ with
        | str s =>
          rw [List.nil_append] at h
          rw [h] at hnotail
          exact absurd hnotail (by simp)
        | obj sE =>
          cases tv with
          | str t =>
            rw [List.singleton_append, lookupKey_cons, if_pos rfl] at h
            cases h
            exact ⟨JSVal.obj sE, by rw [lookupKey_cons, if_pos rfl], Or.inl rfl⟩
          | obj tE =>
            simp only at h
            by_cases hn : (findMissingContent sE tE
                (if path = "" then k₀ else path ++ "." ++ k₀)).isEmpty
            · rw [if_pos hn, List.nil_append] at h
              rw [h] at hnotail
              exact absurd hnotail (by simp)
            · rw [if_neg hn, List.singleton_append, lookupKey_cons, if_pos rfl] at h
              cases h
              exact ⟨JSVal.obj sE, by rw [lookupKey_cons, if_pos rfl],
                Or.inr ⟨sE, tE, _, rfl, rfl⟩⟩
    · rw [findMissingContent_cons] at h
      have hmain : lookupKey (findMissingContent rest T path) k = some mv := by
        cases hl : lookupKey T k₀ with
        | none =>
          rw [hl, List.singleton_append, lookupKey_cons, if_neg hk] at h
          exact h
        | some tv =>
          rw [hl] at h
          cases v₀ with
          | str s =>
            rw [List.nil_append] at h
            exact h
          | obj sE =>
            cases tv with
            | str t =>
              rw [List.singleton_append, lookupKey_cons, if_neg hk] at h
              exact h
            | obj tE =>
              simp only at h
              by_cases hn : (findMissingContent sE tE
                  (if path = "" then k₀ else path ++ "." ++ k₀)).isEmpty
              · rw [if_pos hn, List.nil_append] at h
                exact h
              · rw [if_neg hn, List.singleton_append, lookupKey_cons, if_neg hk] at h
                exact h
      obtain ⟨sv, hsv, hd⟩ := @ih T path k mv hwf.2.2 hmain
      exact ⟨sv, by rw [lookupKey_cons, if_neg hk]; exact hsv, hd⟩

theorem getPath_nil_obj : ∀ (segs : List String), getPath ([] : Obj) segs = none := by
  intro segs
  cases segs with
  | nil => rfl
  | cons k tl =>
    cases tl with
    | nil => rfl
    | cons t1 t2 => rfl

/-- Every path readable in the missing content is readable in the source,
and reads the verbatim source value except at recursively-diffed interior
objects. -/
theorem getPath_findMissingContent : ∀ (n : Nat) {S : Obj}, sizeObj S ≤ n →
    wfObj S = true →
    ∀ {T : Obj} {path : String} {segs : List String} {v : JSVal},
      getPath (findMissingContent S T path) segs = some v →
      ∃ w, getPath S segs = some w ∧
        (v = w ∨ ((∃ e, v = JSVal.obj e) ∧ (∃ e, w = JSVal.obj e))) := by
  intro n
  induction n with
  | zero =>
    intro S hn hwf T path segs v h
    cases S with
    | nil =>
      rw [findMissingContent_nil, getPath_nil_obj] at h
      exact absurd h (by simp)
    | cons e rest =>
      obtain ⟨k, v₀⟩ := e
      have h1 := one_le_sizeVal v₀
      simp only [sizeObj] at hn
      omega
  | succ m ih =>
    intro S hn hwf T path segs v h
    cases segs with
    | nil => exact absurd h (by simp [getPath])
    | cons k tl =>
      cases tl with
      | nil =>
        rw [getPath_single] at h
        obtain ⟨sv, hsv, hd⟩ := lookupKey_findMissingContent hwf h
        refine ⟨sv, by rw [getPath_single]; exact hsv, ?_⟩
        rcases hd with rfl | ⟨sE, tE, p', rfl, rfl⟩
        · exact Or.inl rfl
        · exact Or.inr ⟨⟨_, rfl⟩, ⟨sE, rfl⟩⟩
      | cons t1 t2 =>
        rw [getPath_cons₂] at h
        cases hm : lookupKey (findMissingContent S T path) k with
        | none => rw [hm] at h; simp at h
        | some mv =>
          rw [hm] at h
          cases mv with
          | str s => simp at h
          | obj e =>
            simp only at h
            obtain ⟨sv, hsv, hd⟩ := lookupKey_findMissingContent hwf hm
            rcases hd with hveq | ⟨sE, tE', p', rfl, hee⟩
            · refine ⟨v, ?_, Or.inl rfl⟩
              rw [getPath_cons₂, hsv, ← hveq]
              simpa using h
            · have hee' : e = findMissingContent sE tE' p' := by
                injection hee
              subst hee'
              have hszE : sizeObj sE ≤ m := by
                have h1 := sizeVal_lt_of_lookupKey hsv
                have h2 : sizeVal (JSVal.obj sE) = 1 + sizeObj sE := by simp [sizeVal]
                omega
              have hwfE : wfObj sE = true := by
                have := wfVal_of_lookupKey hwf hsv
                simpa [wfVal] using this
              obtain ⟨w, hw, hdisj⟩ := ih hszE hwfE h
              refine ⟨w, ?_, hdisj⟩
              rw [getPath_cons₂, hsv]
              simpa using hw

/-! ## Claim theorems -/

/-- C1: evaluation of `removeObsoleteKeys` at the failing input
`T = {c: "1"}`, `P = ["a.c"]`.  The claim (and the spec) say a path whose
intermediate segment `a` is missing from the tree is aborted silently, so the
result should equal the result with that path omitted, namely `T` itself.
The code instead stops the walk at the root and still deletes the path's
final segment `c` there, returning the empty tree. -/
theorem removeObsoleteKeys_missing_intermediate_still_deletes :
    removeObsoleteKeys [("c", JSVal.str "1")] ["a.c"] = [] ∧
    removeObsoleteKeys [("c", JSVal.str "1")] [] = [("c", JSVal.str "1")] :=
  ⟨rfl, rfl⟩

/-- C2: evaluation of `removeObsoleteKeys` at a failing input for
idempotence.  With `T = {x: {c: "1"}, c: "2"}` and `P = ["x.c", "x"]` one
application yields `{c: "2"}`, but a second application walks `x.c`, finds
`x` gone, and deletes `c` at the root, yielding `{}`. -/
theorem removeObsoleteKeys_twice_differs :
    removeObsoleteKeys [("x", JSVal.obj [("c", JSVal.str "1")]), ("c", JSVal.str "2")]
      ["x.c", "x"] = [("c", JSVal.str "2")] ∧
    removeObsoleteKeys
      (removeObsoleteKeys [("x", JSVal.obj [("c", JSVal.str "1")]), ("c", JSVal.str "2")]
        ["x.c", "x"]) ["x.c", "x"] = [] ∧
    removeObsoleteKeys
      (removeObsoleteKeys [("x", JSVal.obj [("c", JSVal.str "1")]), ("c", JSVal.str "2")]
        ["x.c", "x"]) ["x.c", "x"] ≠
      removeObsoleteKeys [("x", JSVal.obj [("c", JSVal.str "1")]), ("c", JSVal.str "2")]
        ["x.c", "x"] := by
  refine ⟨rfl, rfl, ?_⟩
  intro h
  rw [show removeObsoleteKeys
      (removeObsoleteKeys [("x", JSVal.obj [("c", JSVal.str "1")]), ("c", JSVal.str "2")]
        ["x.c", "x"]) ["x.c", "x"] = [] from rfl,
    show removeObsoleteKeys [("x", JSVal.obj [("c", JSVal.str "1")]), ("c", JSVal.str "2")]
      ["x.c", "x"] = [("c", JSVal.str "2")] from rfl] at h
  exact List.noConfusion h

/-- C3: evaluation of the update flow at the failing input: the record for
`fr` exists on disk but its contents fail to load (`storeFind` yields
`some none`).  The claim (and the spec) say the Create flow is run as a
recovery: one remote call with the full source tree, whose result is
persisted.  The code does delegate to `translateLanguage`, but that function
first checks `fileManager.exists(targetFile)` — which is still true — and
returns "skipped": zero remote calls and an unchanged store. -/
theorem updateLanguage_unloadable_record_skips :
    updateLanguage [("fr", none)] (fun d _ => some d) "fr" [("title", JSVal.str "Hello")] =
      ([("fr", none)], [], Outcome.skippedExists) := rfl

/-- C4 counterexample: the claim quantifies over all trees, but a target key
containing the path separator `'.'` breaks it.  With `S = {}` and
`T = {"a.b": "x"}` the only obsolete path is `"a.b"`, whose removal splits
it into `["a", "b"]`, walks to nothing and deletes nothing, so the obsolete
key survives the pruning. -/
theorem removeObsoleteKeys_dotted_key_counterexample :
    findObsoleteContent []
      (removeObsoleteKeys [("a.b", JSVal.str "x")]
        (findObsoleteContent [] [("a.b", JSVal.str "x")] "")) "" = ["a.b"] ∧
    findObsoleteContent []
      (removeObsoleteKeys [("a.b", JSVal.str "x")]
        (findObsoleteContent [] [("a.b", JSVal.str "x")] "")) "" ≠ [] := by
  have h1 : findObsoleteContent [] [("a.b", JSVal.str "x")] "" = ["a.b"] := by
    simp [findObsoleteContent, lookupKey]
  have h2 : removeObsoleteKeys [("a.b", JSVal.str "x")] ["a.b"] =
      [("a.b", JSVal.str "x")] := rfl
  rw [h1, h2]
  exact ⟨h1, by rw [h1]; simp⟩

/-- C4 (amended): for every source `S` and every well-formed target `T`
(no duplicate keys, as in any parsed JS object) all of whose keys are
nonempty and contain no `'.'`, pruning `T` with the obsolete paths computed
against `S` leaves no obsolete keys:
`findObsoleteKeys(S, removeKeys(T, findObsoleteKeys(S, T)))` is empty. -/
theorem pruned_target_has_no_obsolete_keys (S T : Obj) (hwf : wfObj T = true)
    (hg : goodKeys T = true) :
    findObsoleteContent S (removeObsoleteKeys T (findObsoleteContent S T "")) "" = [] := by
  rw [removeObsoleteKeys_eq_pruneObs hwf hg]
  exact findObsoleteContent_pruneObs (sizeObj T) "" le_rfl

/-- Witness for the amended C4 at `S = {a: "1"}`,
`T = {a: "x", b: {c: "2"}}`. -/
theorem pruned_target_has_no_obsolete_keys_witness :
    wfObj [("a", JSVal.str "x"), ("b", JSVal.obj [("c", JSVal.str "2")])] = true ∧
    goodKeys [("a", JSVal.str "x"), ("b", JSVal.obj [("c", JSVal.str "2")])] = true ∧
    findObsoleteContent [("a", JSVal.str "1")]
      (removeObsoleteKeys [("a", JSVal.str "x"), ("b", JSVal.obj [("c", JSVal.str "2")])]
        (findObsoleteContent [("a", JSVal.str "1")]
          [("a", JSVal.str "x"), ("b", JSVal.obj [("c", JSVal.str "2")])] "")) "" = [] :=
  ⟨rfl, rfl, pruned_target_has_no_obsolete_keys _ _ rfl rfl⟩

/-- C5: diffing a well-formed tree against itself yields the empty missing
tree and the empty obsolete-path list. -/
theorem self_diff_empty (S : Obj) (h : wfObj S = true) :
    findMissingContent S S "" = [] ∧ findObsoleteContent S S "" = [] :=
  ⟨findMissingContent_eq_nil_of_sub (sizeObj S) "" le_rfl h
      (fun _ _ hm => lookupKey_self_of_wf h hm),
    findObsoleteContent_eq_nil_of_sub (sizeObj S) "" le_rfl h
      (fun _ _ hm => lookupKey_self_of_wf h hm)⟩

/-- Witness for C5 at `S = {a: {b: "1"}, c: "2"}`. -/
theorem self_diff_empty_witness :
    findMissingContent [("a", JSVal.obj [("b", JSVal.str "1")]), ("c", JSVal.str "2")]
      [("a", JSVal.obj [("b", JSVal.str "1")]), ("c", JSVal.str "2")] "" = [] ∧
    findObsoleteContent [("a", JSVal.obj [("b", JSVal.str "1")]), ("c", JSVal.str "2")]
      [("a", JSVal.obj [("b", JSVal.str "1")]), ("c", JSVal.str "2")] "" = [] :=
  self_diff_empty _ rfl

/-- C6: a key bound to a leaf in both trees is omitted from the missing
content regardless of the two leaf values, and Scenario A evaluates as the
spec states: `findMissingContent({a: {b: "1", c: "2"}}, {a: {b: "x"}})` is
`{a: {c: "2"}}` with no obsolete keys. -/
theorem missing_content_keeps_shared_leaves :
    (∀ (S T : Obj) (path k a b : String), wfObj S = true →
        (k, JSVal.str a) ∈ S → lookupKey T k = some (JSVal.str b) →
        lookupKey (findMissingContent S T path) k = none) ∧
    findMissingContent [("a", JSVal.obj [("b", JSVal.str "1"), ("c", JSVal.str "2")])]
        [("a", JSVal.obj [("b", JSVal.str "x")])] "" =
      [("a", JSVal.obj [("c", JSVal.str "2")])] ∧
    findObsoleteContent [("a", JSVal.obj [("b", JSVal.str "1"), ("c", JSVal.str "2")])]
        [("a", JSVal.obj [("b", JSVal.str "x")])] "" = [] := by
  refine ⟨?_, ?_, ?_⟩
  · intro S T path k a b hwf hm hT
    exact lookupKey_findMissingContent_of_leaf hwf hm hT
  · simp [findMissingContent, lookupKey]
  · simp [findObsoleteContent, lookupKey]

/-- Witness for C6 at `S = {k: "v"}`, `T = {k: "w"}` (differing leaves). -/
theorem missing_content_keeps_shared_leaves_witness :
    lookupKey (findMissingContent [("k", JSVal.str "v")] [("k", JSVal.str "w")] "") "k"
      = none :=
  missing_content_keeps_shared_leaves.1 [("k", JSVal.str "v")] [("k", JSVal.str "w")]
    "" "k" "v" "w" rfl (by simp) rfl

/-- C7: the empty tree is a two-sided identity for `deepMerge` (the overlay
side requires the usual no-duplicate-keys well-formedness of JS objects). -/
theorem deepMerge_empty_identity (T M : Obj) (h : wfObj M = true) :
    deepMerge T [] = T ∧ deepMerge [] M = M := by
  refine ⟨deepMerge_nil_right T, ?_⟩
  rw [@deepMerge_of_fresh M [] (fun _ _ => rfl) h, List.nil_append]

/-- Witness for C7 at `T = {t: "1"}`, `M = {m: {x: "2"}}`. -/
theorem deepMerge_empty_identity_witness :
    deepMerge [("t", JSVal.str "1")] [] = [("t", JSVal.str "1")] ∧
    deepMerge [] [("m", JSVal.obj [("x", JSVal.str "2")])] =
      [("m", JSVal.obj [("x", JSVal.str "2")])] :=
  deepMerge_empty_identity _ _ rfl

/-- C8: in the Create flow, a language whose record already exists is
reported skipped, with zero remote-translator calls and an unchanged
store. -/
theorem translateLanguage_skips_existing (st : Store) (tr : Translator) (lang : String)
    (sourceData : Obj) (h : storeHas st lang = true) :
    translateLanguage st tr lang sourceData = (st, [], Outcome.skippedExists) := by
  rw [translateLanguage, if_pos h]

/-- Witness for C8: an existing record for `en` is skipped. -/
theorem translateLanguage_skips_existing_witness :
    storeHas [("en", some [("a", JSVal.str "1")])] "en" = true ∧
    translateLanguage [("en", some [("a", JSVal.str "1")])] (fun d _ => some d) "en"
      [("b", JSVal.str "2")] =
      ([("en", some [("a", JSVal.str "1")])], [], Outcome.skippedExists) :=
  ⟨rfl, translateLanguage_skips_existing _ _ _ _ rfl⟩

/-- C9 counterexample: with `S = {}` and `T = {"a.b": "x"}` the emitted
dotted path is `"a.b"`, which splits into the two segments `["a", "b"]`;
its proper dotted prefix `"a"` denotes nothing in `T`, so the emitted list
is not well-formed for pruning as the claim states. -/
theorem obsolete_path_dotted_key_counterexample :
    findObsoleteContent [] [("a.b", JSVal.str "x")] "" = ["a.b"] ∧
    splitDots "a.b" = ["a", "b"] ∧
    strictAncestor ["a"] ["a", "b"] ∧
    getPath [("a.b", JSVal.str "x")] ["a"] = none := by
  refine ⟨?_, rfl, ⟨["b"], by simp, rfl⟩, rfl⟩
  simp [findObsoleteContent, lookupKey]

/-- C9 (amended): for a well-formed target `T` whose keys are nonempty and
dot-free, the obsolete paths emitted against any source `S` are well-formed
for pruning: every strict ancestor of an emitted (split) path denotes an
object in `T`, and no emitted path is a strict ancestor of another. -/
theorem obsolete_paths_wellformed (S T : Obj) (hwf : wfObj T = true)
    (hg : goodKeys T = true) :
    (∀ p ∈ (findObsoleteContent S T "").map splitDots,
      ∀ q, q ≠ [] → strictAncestor q p → ∃ e, getPath T q = some (JSVal.obj e)) ∧
    ((findObsoleteContent S T "").map splitDots).Pairwise
      (fun a b => ¬ strictAncestor a b ∧ ¬ strictAncestor b a) := by
  have hb : (findObsoleteContent S T "").map splitDots = findObsoleteSegs S T := by
    rw [map_splitDots_findObsoleteContent (sizeObj T) "" le_rfl hg]
    have h2 : pathSegs "" = [] := by simp [pathSegs]
    rw [h2]
    simp only [List.nil_append, List.map_id']
  rw [hb]
  exact ⟨fun p hp q hq hsa => findObsoleteSegs_ancestors (sizeObj T) le_rfl hwf p hp q hq hsa,
    findObsoleteSegs_pairwise (sizeObj T) le_rfl hwf⟩

/-- Witness for the amended C9 at `S = {b: {}}`, `T = {b: {c: "2"}}`: the
emitted path splits to `["b", "c"]` and its strict ancestor `["b"]` denotes
an object in `T`. -/
theorem obsolete_paths_wellformed_witness :
    ∃ e, getPath [("b", JSVal.obj [("c", JSVal.str "2")])] ["b"] = some (JSVal.obj e) := by
  have hobs : findObsoleteContent [("b", JSVal.obj [])]
      [("b", JSVal.obj [("c", JSVal.str "2")])] "" = ["b.c"] := by
    simp [findObsoleteContent, lookupKey]
  refine (obsolete_paths_wellformed [("b", JSVal.obj [])]
      [("b", JSVal.obj [("c", JSVal.str "2")])] rfl rfl).1 ["b", "c"] ?_ ["b"]
      (by simp) ⟨["c"], by simp, rfl⟩
  rw [hobs]
  simp only [List.map_cons, List.map_nil]
  rw [show splitDots "b.c" = ["b", "c"] from rfl]
  simp

/-- C10: the missing content is a sub-forest of the source: every key path
readable in `findMissingContent(S, T)` is readable in `S`, and it reads the
verbatim source value unless both sides are interior objects (in which case
the result holds a recursively-diffed object). -/
theorem missing_content_sub_forest (S T : Obj) (path : String) (segs : List String)
    (v : JSVal) (hwf : wfObj S = true)
    (h : getPath (findMissingContent S T path) segs = some v) :
    ∃ w, getPath S segs = some w ∧
      (v = w ∨ ((∃ e, v = JSVal.obj e) ∧ (∃ e, w = JSVal.obj e))) :=
  getPath_findMissingContent (sizeObj S) le_rfl hwf h

/-- Witness for C10 at `S = {a: "1"}`, `T = {}`: the missing content holds
`a`, which reads back the verbatim source leaf. -/
theorem missing_content_sub_forest_witness :
    ∃ w, getPath [("a", JSVal.str "1")] ["a"] = some w ∧
      (JSVal.str "1" = w ∨
        ((∃ e, JSVal.str "1" = JSVal.obj e) ∧ (∃ e, w = JSVal.obj e))) :=
  missing_content_sub_forest [("a", JSVal.str "1")] [] "" ["a"] (JSVal.str "1") rfl
    (by simp [findMissingContent, lookupKey, getPath])
